import Mathlib

/-!
Shallow embedding of the two core components of the repository
`Awesome-Utils-Function`:

* `Log` from `src/classes.py` (the IndexLog component): a sidecar file
  `idx.log` holding one JSON record `{filename, idx}` per line.  We model
  the parsed content of that single sidecar file as `Option (List Entry)`
  (`none` = the file does not exist), and every `Log` operation threads the
  file state explicitly, returning the new file state alongside the object.
  `Log.__init__` only reads the file, `update`/`set_zero` truncate and
  rewrite it.

* `run_in_parallel` from `src/functions.py` (the ParallelMap component).
  Python values relevant to its dispatch logic are modelled by `PyVal`,
  which distinguishes `list` (the only type `isinstance(arg, list)`
  accepts) from tuples, strings and integers.  `ThreadPoolExecutor.map`
  is documented to yield results in the order of its input iterables
  (it re-sequences by index, not by completion time), so the pool is
  modelled as a pure ordered map; `tqdm` is a progress side channel with
  no effect on the returned list.
-/

namespace AwesomeUtils

/-- One line of the sidecar file: `{"filename": ..., "idx": ...}`.
`Log.__init__` applies `int(...)` to the parsed `idx`, so we model it as
an integer directly. -/
structure Entry where
  filename : String
  idx : Int
deriving Repr, DecidableEq

/-- The parsed content of the single sidecar file `idx.log` of one
directory: `none` when the file does not exist. -/
abbrev FileState := Option (List Entry)

/-- In-memory state of a `Log` object: the held `last_idx` and the ordered
entry sequence `self.logs`. -/
structure Log where
  last_idx : Int
  logs : List Entry
deriving Repr, DecidableEq

/-- The body of the read loop in `Log.__init__` (src/classes.py lines
36-41): a matching line overwrites the remembered index, any other line is
appended to `self.logs`. -/
def readStep (basename : String) (acc : Int × List Entry) (js : Entry) :
    Int × List Entry :=
  if js.filename = basename then (js.idx, acc.2) else (acc.1, acc.2 ++ [js])

/-- `Log.__init__(output_path)` (src/classes.py lines 10-42), restricted to
one directory so only `basename(output_path)` matters.  Starts from
`last_idx = 0`, `logs = []`; if the sidecar file exists it is read line by
line with `readStep`; finally a fresh entry `{filename: basename, idx:
last_idx}` is appended.  The constructor never writes the file, so the
file state is returned unchanged. -/
def Log.init (basename : String) (fs : FileState) : Log × FileState :=
  let st :=
    match fs with
    | none => ((0 : Int), ([] : List Entry))
    | some entries => entries.foldl (readStep basename) (0, [])
  ({ last_idx := st.1, logs := st.2 ++ [⟨basename, st.1⟩] }, fs)

/-- `self.logs[-1]['idx'] = idx`: mutate the `idx` field of the last entry
of the list.  (`self.logs` is never empty when the source reaches this
statement, since `__init__` always appends a tail entry.) -/
def setLastIdx : List Entry → Int → List Entry
  | [], _ => []
  | [e], i => [{ e with idx := i }]
  | e :: e₂ :: rest, i => e :: setLastIdx (e₂ :: rest) i

/-- `Log.update(idx)` (src/classes.py lines 44-59): set the tail entry's
`idx`, rewrite the whole file from `self.logs` (open mode `'w'`
truncates, so the previous file content is discarded), then set
`self.last_idx = idx`. -/
def Log.update (lg : Log) (idx : Int) (_fs : FileState) : Log × FileState :=
  let newLogs := setLastIdx lg.logs idx
  ({ last_idx := idx, logs := newLogs }, some newLogs)

/-- `Log.set_zero()` (src/classes.py lines 61-73): set `self.last_idx = 0`,
set the tail entry's `idx` to `0`, rewrite the whole file from
`self.logs`. -/
def Log.set_zero (lg : Log) (_fs : FileState) : Log × FileState :=
  let newLogs := setLastIdx lg.logs 0
  ({ last_idx := 0, logs := newLogs }, some newLogs)

/-- Run a sequence of `update` calls on a `Log`, threading the file. -/
def runUpdates : Log → FileState → List Int → Log × FileState
  | lg, fs, [] => (lg, fs)
  | lg, fs, v :: vs =>
    let st := lg.update v fs
    runUpdates st.1 st.2 vs

/-- A mutating call on a `Log`: `update(idx)` or `set_zero()`. -/
inductive LogOp where
  | update (idx : Int)
  | setZero
deriving Repr, DecidableEq

/-- Apply one mutating call. -/
def applyOp (lg : Log) (fs : FileState) : LogOp → Log × FileState
  | .update i => lg.update i fs
  | .setZero => lg.set_zero fs

/-- Run a sequence of mutating calls on a `Log`, threading the file. -/
def runOps : Log → FileState → List LogOp → Log × FileState
  | lg, fs, [] => (lg, fs)
  | lg, fs, op :: ops =>
    let st := applyOp lg fs op
    runOps st.1 st.2 ops

/-- The index remembered for `basename` after reading `entries` in file
order starting from default `d`: the last matching line wins. -/
def lastIdxOf (basename : String) (entries : List Entry) (d : Int) : Int :=
  entries.foldl (fun li e => if e.filename = basename then e.idx else li) d

/-- The entries of other filenames, kept in original order. -/
def othersOf (basename : String) (entries : List Entry) : List Entry :=
  entries.filter (fun e => !(e.filename == basename))

/-- "At most one entry per filename" for a file state. -/
def filenamesNodup : FileState → Prop
  | none => True
  | some es => (es.map Entry.filename).Nodup

/-! ### Characterisation of the constructor's read loop -/

theorem readLoop_eq (basename : String) (entries : List Entry) :
    ∀ (li : Int) (acc : List Entry),
      entries.foldl (readStep basename) (li, acc)
        = (lastIdxOf basename entries li, acc ++ othersOf basename entries) := by
  induction entries with
  | nil => intro li acc; simp [lastIdxOf, othersOf]
  | cons e rest ih =>
    intro li acc
    by_cases h : e.filename = basename
    · simp [List.foldl_cons, readStep, h, ih, lastIdxOf, othersOf, List.filter_cons]
    · simp [List.foldl_cons, readStep, h, ih, lastIdxOf, othersOf, List.filter_cons]

/-- `Log.init` on an existing file: `last_idx` is the last matching line's
index (default 0), `logs` is the non-matching entries in order followed by
the fresh tail entry, and the file is untouched. -/
theorem Log.init_some (basename : String) (entries : List Entry) :
    Log.init basename (some entries)
      = ({ last_idx := lastIdxOf basename entries 0,
           logs := othersOf basename entries
                    ++ [⟨basename, lastIdxOf basename entries 0⟩] },
         some entries) := by
  simp [Log.init, readLoop_eq]

/-- `Log.init` on a missing file: `last_idx = 0`, a single fresh entry, no
file created. -/
theorem Log.init_none (basename : String) :
    Log.init basename none = ({ last_idx := 0, logs := [⟨basename, 0⟩] }, none) := rfl

/-! ### Helper lemmas about `lastIdxOf`, `othersOf`, `setLastIdx` -/

theorem lastIdxOf_append (basename : String) (xs ys : List Entry) (d : Int) :
    lastIdxOf basename (xs ++ ys) d = lastIdxOf basename ys (lastIdxOf basename xs d) := by
  simp [lastIdxOf, List.foldl_append]

theorem lastIdxOf_singleton_match (basename : String) (v d : Int) :
    lastIdxOf basename [⟨basename, v⟩] d = v := by
  simp [lastIdxOf]

theorem lastIdxOf_tail (basename : String) (xs : List Entry) (v d : Int) :
    lastIdxOf basename (xs ++ [⟨basename, v⟩]) d = v := by
  simp [lastIdxOf_append, lastIdxOf_singleton_match]

theorem lastIdxOf_no_match (basename : String) (xs : List Entry) (d : Int)
    (h : ∀ e ∈ xs, e.filename ≠ basename) : lastIdxOf basename xs d = d := by
  induction xs generalizing d with
  | nil => rfl
  | cons e rest ih =>
    have he : e.filename ≠ basename := h e (List.mem_cons_self e rest)
    simp only [lastIdxOf, List.foldl_cons, if_neg he]
    exact ih d (fun x hx => h x (List.mem_cons_of_mem e hx))

theorem othersOf_not_match (basename : String) (entries : List Entry) :
    ∀ e ∈ othersOf basename entries, e.filename ≠ basename := by
  intro e he
  have := List.of_mem_filter he
  simpa using this

theorem setLastIdx_append (pre : List Entry) (e : Entry) (i : Int) :
    setLastIdx (pre ++ [e]) i = pre ++ [{ e with idx := i }] := by
  induction pre with
  | nil => rfl
  | cons p rest ih =>
    cases rest with
    | nil => simp [setLastIdx]
    | cons q rest₂ =>
      show p :: setLastIdx (q :: rest₂ ++ [e]) i
            = p :: (q :: rest₂ ++ [{ e with idx := i }])
      rw [ih]

/-- The shape `__init__` always leaves `self.logs` in: some prefix
followed by the freshly appended tail entry for `basename`, the prefix
containing no entry for `basename`. -/
theorem Log.init_logs_shape (b : String) (fs : FileState) :
    ∃ pre j, (Log.init b fs).1.logs = pre ++ [⟨b, j⟩]
      ∧ ∀ e ∈ pre, e.filename ≠ b := by
  cases fs with
  | none => exact ⟨[], 0, rfl, by simp⟩
  | some entries =>
    refine ⟨othersOf b entries, lastIdxOf b entries 0, ?_, othersOf_not_match b entries⟩
    rw [Log.init_some]

/-- The file content after a non-empty sequence of `update` calls on a
`Log` whose `logs` end in the tail entry for `b`: the prefix survives
verbatim and the tail entry carries the last updated value. -/
theorem runUpdates_file (b : String) (vs : List Int) (hvs : vs ≠ []) :
    ∀ (lg : Log) (fs : FileState) (pre : List Entry) (j : Int),
      lg.logs = pre ++ [⟨b, j⟩] →
      (runUpdates lg fs vs).2 = some (pre ++ [⟨b, vs.getLast hvs⟩]) := by
  induction vs with
  | nil => exact absurd rfl hvs
  | cons v rest ih =>
    intro lg fs pre j hlogs
    cases rest with
    | nil =>
      simp only [runUpdates, Log.update, hlogs, setLastIdx_append]
      rfl
    | cons v₂ rest₂ =>
      have step : (lg.update v fs).1.logs = pre ++ [⟨b, v⟩] := by
        simp only [Log.update, hlogs, setLastIdx_append]
      have := ih (List.cons_ne_nil v₂ rest₂) (lg.update v fs).1 (lg.update v fs).2 pre v step
      show (runUpdates (lg.update v fs).1 (lg.update v fs).2 (v₂ :: rest₂)).2
          = some (pre ++ [⟨b, (v :: v₂ :: rest₂).getLast hvs⟩])
      rw [this, List.getLast_cons (List.cons_ne_nil v₂ rest₂)]

/-- `setLastIdx` only changes an `idx` field: the filename sequence is
untouched. -/
theorem setLastIdx_map_filename :
    ∀ (ls : List Entry) (i : Int),
      (setLastIdx ls i).map Entry.filename = ls.map Entry.filename
  | [], _ => rfl
  | [_], _ => rfl
  | e :: e₂ :: rest, i => by
    show e.filename :: (setLastIdx (e₂ :: rest) i).map Entry.filename
        = e.filename :: (e₂ :: rest).map Entry.filename
    rw [setLastIdx_map_filename (e₂ :: rest) i]

/-- "At most one entry per filename" for the in-memory sequence. -/
def logsNodup (lg : Log) : Prop := (lg.logs.map Entry.filename).Nodup

/-- Construction preserves filename uniqueness: read from a file with at
most one entry per filename, the in-memory sequence has at most one entry
per filename. -/
theorem Log.init_logsNodup (b : String) (fs : FileState)
    (h : filenamesNodup fs) : logsNodup (Log.init b fs).1 := by
  cases fs with
  | none => simp [logsNodup, Log.init]
  | some entries =>
    have hent : (entries.map Entry.filename).Nodup := h
    rw [Log.init_some]
    show ((othersOf b entries ++ [(⟨b, lastIdxOf b entries 0⟩ : Entry)]).map Entry.filename).Nodup
    rw [List.map_append, List.nodup_append]
    refine ⟨?_, by simp, ?_⟩
    · have hsub : List.Sublist (othersOf b entries) entries := List.filter_sublist entries
      exact (hsub.map Entry.filename).nodup hent
    · intro x hx
      obtain ⟨e, he, rfl⟩ := List.mem_map.mp hx
      simpa using othersOf_not_match b entries e he


/-- Python values as far as `run_in_parallel`'s dispatch logic observes
them: `isinstance(arg, list)` is true exactly for `vList`; tuples,
strings and integers are other values. -/
inductive PyVal where
  | vInt (n : Int)
  | vStr (s : String)
  | vTuple (elems : List PyVal)
  | vList (elems : List PyVal)
deriving Repr

/-- `isinstance(arg, list)`. -/
def PyVal.isList : PyVal → Bool
  | .vList _ => true
  | _ => false

/-- The `list_arg_lens` accumulation loop (src/functions.py lines
359-362): the lengths of the `list`-typed arguments, in order. -/
def listArgLens (args : List PyVal) : List Nat :=
  args.foldl (fun acc a =>
    match a with
    | .vList xs => acc ++ [xs.length]
    | _ => acc) []

/-- The broadcast step building `new_args` (src/functions.py lines
365-370): a `list` argument is kept, any other argument `a` becomes
`[a] * L` where `L = list_arg_lens[0]`. -/
def broadcast (L : Nat) : PyVal → List PyVal
  | .vList xs => xs
  | a => List.replicate L a

/-- Number of rows produced by `zip(*cols)` / `Executor.map`: the minimum
of the column lengths (zero columns give zero rows). -/
def zipMinLen (cols : List (List PyVal)) : Nat :=
  match cols with
  | [] => 0
  | c :: cs => cs.foldl (fun m col => min m col.length) c.length

/-- The argument tuples `Executor.map(func, *new_args)` feeds to `func`,
in input order: row `i` is the `i`-th element of each column. -/
def zipRows (cols : List (List PyVal)) : List (List PyVal) :=
  (List.range (zipMinLen cols)).map (fun i => cols.map (fun col => col.getD i (.vInt 0)))

/-- `run_in_parallel(func, *args, n)` (src/functions.py lines 336-375).
`arity` is `func.__code__.co_argcount` and `call` is the pure function
`func` applied to one argument tuple; the worker count `n` does not affect
the returned list.  The three `.error` results model, in source order: the
`ValueError` for an arity mismatch (line 358), the `ValueError` for
inconsistent list lengths (line 364; `all` over an empty generator is
true, so it cannot fire when there is no list argument), and the
`IndexError` from evaluating `list_arg_lens[0]` when no argument is a list
(line 370 during broadcast, or the `total=` argument at line 373 when
there are no arguments at all) — each raised before `func` is ever
invoked. -/
def run_in_parallel (arity : Nat) (call : List PyVal → PyVal)
    (args : List PyVal) : Except String (List PyVal) :=
  if args.length ≠ arity then
    .error "Number of arguments does not match function signature"
  else if !((listArgLens args).all (fun l => l == (listArgLens args).headD 0)) then
    .error "All arguments must be lists of the same length"
  else
    match listArgLens args with
    | [] => .error "IndexError: list index out of range"
    | L :: _ => .ok ((zipRows (args.map (broadcast L))).map call)

/-- The element an argument contributes to invocation `i`: lists
contribute their `i`-th element, everything else is passed whole. -/
def elemAt (a : PyVal) (i : Nat) : PyVal :=
  match a with
  | .vList xs => xs.getD i (.vInt 0)
  | a => a

/-- Decidable statement that every `list` argument has length `L`. -/
def listsHaveLen (args : List PyVal) (L : Nat) : Bool :=
  args.all (fun a =>
    match a with
    | .vList xs => xs.length == L
    | _ => true)

/-! ### Helper lemmas about the dispatch pipeline -/

theorem listArgLens_foldl (args : List PyVal) :
    ∀ acc : List Nat,
      args.foldl (fun acc a =>
        match a with
        | .vList xs => acc ++ [xs.length]
        | _ => acc) acc
      = acc ++ args.filterMap (fun a =>
          match a with
          | .vList xs => some xs.length
          | _ => none) := by
  induction args with
  | nil => intro acc; simp
  | cons a rest ih =>
    intro acc
    cases a with
    | vInt n => simpa [List.filterMap_cons] using ih acc
    | vStr s => simpa [List.filterMap_cons] using ih acc
    | vTuple es => simpa [List.filterMap_cons] using ih acc
    | vList xs =>
      simp only [List.foldl_cons, List.filterMap_cons, ih (acc ++ [xs.length])]
      simp

theorem listArgLens_eq (args : List PyVal) :
    listArgLens args = args.filterMap (fun a =>
      match a with
      | .vList xs => some xs.length
      | _ => none) := by
  simpa [listArgLens] using listArgLens_foldl args []

theorem mem_listArgLens {args : List PyVal} {l : Nat} (h : l ∈ listArgLens args) :
    ∃ xs, PyVal.vList xs ∈ args ∧ xs.length = l := by
  rw [listArgLens_eq, List.mem_filterMap] at h
  obtain ⟨a, ha, he⟩ := h
  cases a with
  | vList xs => exact ⟨xs, ha, by simpa using he⟩
  | vInt n => simp at he
  | vStr s => simp at he
  | vTuple es => simp at he

theorem listsHaveLen_mem {args : List PyVal} {L : Nat}
    (h : listsHaveLen args L = true) :
    ∀ xs, PyVal.vList xs ∈ args → xs.length = L := by
  intro xs hm
  have := List.all_eq_true.mp h _ hm
  simpa using this

theorem listArgLens_all_L {args : List PyVal} {L : Nat}
    (h : listsHaveLen args L = true) :
    ∀ l ∈ listArgLens args, l = L := by
  intro l hl
  obtain ⟨xs, hxs, hlen⟩ := mem_listArgLens hl
  rw [← hlen]
  exact listsHaveLen_mem h xs hxs

theorem listArgLens_ne_nil {args : List PyVal}
    (hex : args.any PyVal.isList = true) : listArgLens args ≠ [] := by
  obtain ⟨a, ha, hla⟩ := List.any_eq_true.mp hex
  cases a with
  | vList xs =>
    have : xs.length ∈ listArgLens args := by
      rw [listArgLens_eq]
      exact List.mem_filterMap.mpr ⟨_, ha, rfl⟩
    exact List.ne_nil_of_mem this
  | vInt n => simp [PyVal.isList] at hla
  | vStr s => simp [PyVal.isList] at hla
  | vTuple es => simp [PyVal.isList] at hla

theorem listArgLens_nil_of_no_list {args : List PyVal}
    (h : args.all (fun a => !a.isList) = true) : listArgLens args = [] := by
  rw [listArgLens_eq, List.filterMap_eq_nil_iff]
  intro a ha
  have := List.all_eq_true.mp h a ha
  cases a with
  | vList xs => simp [PyVal.isList] at this
  | vInt n => rfl
  | vStr s => rfl
  | vTuple es => rfl

theorem broadcast_length {L : Nat} {a : PyVal}
    (h : ∀ xs, a = PyVal.vList xs → xs.length = L) :
    (broadcast L a).length = L := by
  cases a with
  | vList xs => simpa [broadcast] using h xs rfl
  | vInt n => simp [broadcast]
  | vStr s => simp [broadcast]
  | vTuple es => simp [broadcast]

theorem foldl_min_const (L : Nat) :
    ∀ cs : List (List PyVal), (∀ c ∈ cs, c.length = L) →
      cs.foldl (fun m col => min m col.length) L = L := by
  intro cs
  induction cs with
  | nil => intro _; rfl
  | cons c rest ih =>
    intro h
    have hc : c.length = L := h c (List.mem_cons_self _ _)
    simp only [List.foldl_cons, hc, min_self]
    exact ih (fun x hx => h x (List.mem_cons_of_mem _ hx))

theorem zipMinLen_const {cols : List (List PyVal)} {L : Nat} (hne : cols ≠ [])
    (h : ∀ c ∈ cols, c.length = L) : zipMinLen cols = L := by
  cases cols with
  | nil => exact absurd rfl hne
  | cons c cs =>
    have hc : c.length = L := h c (List.mem_cons_self _ _)
    simp only [zipMinLen, hc]
    exact foldl_min_const L cs (fun x hx => h x (List.mem_cons_of_mem _ hx))

theorem getD_replicate {L i : Nat} (a d : PyVal) (h : i < L) :
    (List.replicate L a).getD i d = a := by
  rw [List.getD_eq_getElem _ _ (by simpa using h)]
  simp

theorem zipRows_broadcast {args : List PyVal} {L : Nat}
    (hargs : args ≠ [])
    (hL : ∀ xs, PyVal.vList xs ∈ args → xs.length = L) :
    zipRows (args.map (broadcast L))
      = (List.range L).map (fun i => args.map (fun a => elemAt a i)) := by
  have hcols : ∀ c ∈ args.map (broadcast L), c.length = L := by
    intro c hc
    obtain ⟨a, ha, rfl⟩ := List.mem_map.mp hc
    exact broadcast_length (fun xs hx => hL xs (hx ▸ ha))
  have hmapne : args.map (broadcast L) ≠ [] := by
    simpa using hargs
  rw [zipRows, zipMinLen_const hmapne hcols]
  apply List.map_congr_left
  intro i hi
  have hiL : i < L := List.mem_range.mp hi
  rw [List.map_map]
  apply List.map_congr_left
  intro a _
  cases a with
  | vList xs => simp [broadcast, elemAt, Function.comp]
  | vInt n => simp [broadcast, elemAt, Function.comp, List.getElem?_replicate, hiL]
  | vStr s => simp [broadcast, elemAt, Function.comp, List.getElem?_replicate, hiL]
  | vTuple es => simp [broadcast, elemAt, Function.comp, List.getElem?_replicate, hiL]

/-- Master characterisation of the success path of `run_in_parallel`:
with a matching arity, at least one `list` argument and every `list`
argument of length `L`, the call returns the `L` results in input order,
result `i` being `call` applied to the `i`-th element of each list
argument and to each other argument whole. -/
theorem run_in_parallel_ok (arity : Nat) (call : List PyVal → PyVal)
    (args : List PyVal) (L : Nat)
    (ha : args.length = arity)
    (hex : args.any PyVal.isList = true)
    (hll : listsHaveLen args L = true) :
    run_in_parallel arity call args
      = .ok ((List.range L).map (fun i => call (args.map (fun a => elemAt a i)))) := by
  have hne := listArgLens_ne_nil hex
  have hmem := listArgLens_all_L hll
  obtain ⟨tail, hlens⟩ : ∃ t, listArgLens args = L :: t := by
    cases hcase : listArgLens args with
    | nil => exact absurd hcase hne
    | cons l0 t =>
      have hl0 : l0 = L := hmem l0 (by rw [hcase]; exact List.mem_cons_self _ _)
      exact ⟨t, by rw [hl0]⟩
  have hargs_ne : args ≠ [] := by
    intro hnil
    apply hne
    rw [hnil]
    rfl
  have hall : ((listArgLens args).all (fun l => l == (listArgLens args).headD 0)) = true := by
    rw [List.all_eq_true]
    intro l hl
    have h1 : l = L := hmem l hl
    rw [hlens]
    simp [h1]
  unfold run_in_parallel
  rw [if_neg (by simp [ha])]
  rw [hall]
  simp only [Bool.not_true, Bool.false_eq_true, if_false]
  rw [hlens]
  show Except.ok ((zipRows (args.map (broadcast L))).map call)
      = Except.ok ((List.range L).map (fun i => call (args.map (fun a => elemAt a i))))
  rw [zipRows_broadcast hargs_ne (listsHaveLen_mem hll)]
  rw [List.map_map]
  rfl

/-- Every mutating call preserves filename uniqueness of both the
in-memory sequence and the rewritten file. -/
theorem runOps_nodup :
    ∀ (ops : List LogOp) (lg : Log) (fs : FileState),
      logsNodup lg → filenamesNodup fs →
      logsNodup (runOps lg fs ops).1 ∧ filenamesNodup (runOps lg fs ops).2 := by
  intro ops
  induction ops with
  | nil => intro lg fs h1 h2; exact ⟨h1, h2⟩
  | cons op rest ih =>
    intro lg fs h1 h2
    have hstep : logsNodup (applyOp lg fs op).1 ∧ filenamesNodup (applyOp lg fs op).2 := by
      cases op with
      | update i =>
        constructor
        · show ((setLastIdx lg.logs i).map Entry.filename).Nodup
          rw [setLastIdx_map_filename]
          exact h1
        · show ((setLastIdx lg.logs i).map Entry.filename).Nodup
          rw [setLastIdx_map_filename]
          exact h1
      | setZero =>
        constructor
        · show ((setLastIdx lg.logs 0).map Entry.filename).Nodup
          rw [setLastIdx_map_filename]
          exact h1
        · show ((setLastIdx lg.logs 0).map Entry.filename).Nodup
          rw [setLastIdx_map_filename]
          exact h1
    show logsNodup (runOps (applyOp lg fs op).1 (applyOp lg fs op).2 rest).1
        ∧ filenamesNodup (runOps (applyOp lg fs op).1 (applyOp lg fs op).2 rest).2
    exact ih _ _ hstep.1 hstep.2

/-! ### Claim theorems -/

/-- C1: for every output path and every non-empty sequence of calls
`update(v1), ..., update(vk)` on a `Log` constructed for it, constructing
a fresh `Log` for the same path afterwards yields `last_idx = vk` (the
last matching line of the rewritten sidecar wins on re-read). -/
theorem log_roundtrip_last_idx (basename : String) (fs : FileState)
    (vs : List Int) (hvs : vs ≠ []) :
    (Log.init basename
      (runUpdates (Log.init basename fs).1 (Log.init basename fs).2 vs).2).1.last_idx
      = vs.getLast hvs := by
  obtain ⟨pre, j, hl, _⟩ := Log.init_logs_shape basename fs
  rw [runUpdates_file basename vs hvs (Log.init basename fs).1
        (Log.init basename fs).2 pre j hl]
  rw [Log.init_some]
  exact lastIdxOf_tail basename pre (vs.getLast hvs) 0

/-- Witness for C1 at a concrete run: `update(3); update(110)` starting
from no sidecar, then a fresh construction reads `110`. -/
theorem log_roundtrip_last_idx_witness :
    (([3, 110] : List Int) ≠ [])
    ∧ (Log.init "train.jsonl"
        (runUpdates (Log.init "train.jsonl" none).1 (Log.init "train.jsonl" none).2
          [3, 110]).2).1.last_idx = ([3, 110] : List Int).getLast (by simp) :=
  ⟨by simp, log_roundtrip_last_idx "train.jsonl" none [3, 110] (by simp)⟩

/-- C2: with matching arity, at least one `list` argument and all `list`
arguments of the same length `L`, `run_in_parallel` returns exactly `L`
results where result `i` is the function applied to the `i`-th element of
each list argument and to each scalar argument broadcast by repetition,
in input order `i = 0..L-1` (the pool's `map` re-sequences by index, not
by completion time). -/
theorem parallel_map_ordered_results (arity : Nat) (call : List PyVal → PyVal)
    (args : List PyVal) (L : Nat)
    (ha : args.length = arity)
    (hex : args.any PyVal.isList = true)
    (hll : listsHaveLen args L = true) :
    ∃ rs, run_in_parallel arity call args = .ok rs ∧ rs.length = L ∧
      ∀ i, i < L → rs.getD i (.vInt 0) = call (args.map (fun a => elemAt a i)) := by
  refine ⟨_, run_in_parallel_ok arity call args L ha hex hll, by simp, ?_⟩
  intro i hi
  rw [List.getD_eq_getElem _ _ (by simpa using hi)]
  simp

/-- Witness for C2 at `run_in_parallel(f, [1, 2, 3], 5, n=...)` with
`f` collecting its two arguments. -/
theorem parallel_map_ordered_results_witness :
    ([PyVal.vList [.vInt 1, .vInt 2, .vInt 3], .vInt 5] : List PyVal).length = 2
    ∧ ([PyVal.vList [.vInt 1, .vInt 2, .vInt 3], .vInt 5] : List PyVal).any PyVal.isList = true
    ∧ listsHaveLen [PyVal.vList [.vInt 1, .vInt 2, .vInt 3], .vInt 5] 3 = true
    ∧ ∃ rs, run_in_parallel 2 (fun l => PyVal.vTuple l)
        [PyVal.vList [.vInt 1, .vInt 2, .vInt 3], .vInt 5] = .ok rs ∧ rs.length = 3 ∧
        ∀ i, i < 3 → rs.getD i (.vInt 0)
          = PyVal.vTuple ([PyVal.vList [.vInt 1, .vInt 2, .vInt 3], .vInt 5].map
              (fun a => elemAt a i)) :=
  ⟨rfl, rfl, rfl, parallel_map_ordered_results 2 (fun l => PyVal.vTuple l)
    [PyVal.vList [.vInt 1, .vInt 2, .vInt 3], .vInt 5] 3 rfl rfl rfl⟩

/-- C3 counterexample: for a sidecar already holding an entry for
`basename(P)`, construction does NOT retain the older matching entry in
the in-memory sequence (only the fresh tail entry remains), and the next
rewrite contains a single entry for that filename, not a duplicate. -/
theorem log_duplicate_retention_counterexample :
    (Log.init "train.jsonl" (some [⟨"train.jsonl", 5⟩])).1.logs
      = [⟨"train.jsonl", 5⟩]
    ∧ ((Log.init "train.jsonl" (some [⟨"train.jsonl", 5⟩])).1.update 7
        (some [⟨"train.jsonl", 5⟩])).2 = some [⟨"train.jsonl", 7⟩] := by
  constructor
  · rfl
  · rfl

/-- C3 (amended): when a `Log` is constructed against a sidecar that
already contains an entry for `basename(P)`, construction appends a fresh
tail entry carrying the last known index for `basename(P)` but REMOVES
every older matching entry from the in-memory sequence (only entries of
other filenames are retained, in order), so the next rewrite by `update`
contains exactly one entry for `basename(P)`. -/
theorem log_construction_drops_stale_entry (basename : String)
    (entries : List Entry) (v : Int) :
    (Log.init basename (some entries)).1.logs
      = othersOf basename entries ++ [⟨basename, lastIdxOf basename entries 0⟩]
    ∧ ((Log.init basename (some entries)).1.update v (some entries)).2
      = some (othersOf basename entries ++ [⟨basename, v⟩])
    ∧ ∀ e ∈ othersOf basename entries, e.filename ≠ basename := by
  refine ⟨?_, ?_, othersOf_not_match basename entries⟩
  · rw [Log.init_some]
  · rw [Log.init_some]
    show some (setLastIdx
        (othersOf basename entries ++ [⟨basename, lastIdxOf basename entries 0⟩]) v) = _
    rw [setLastIdx_append]

/-- C4: an arity mismatch or two list arguments of different lengths make
`run_in_parallel` raise a `ValueError` during validation; the result is
the same for every function body, so the function is invoked zero
times. -/
theorem parallel_map_rejects_before_dispatch (arity : Nat) (args : List PyVal)
    (h : args.length ≠ arity
      ∨ ∃ l1 ∈ listArgLens args, ∃ l2 ∈ listArgLens args, l1 ≠ l2) :
    ∃ msg, ∀ call, run_in_parallel arity call args = .error msg := by
  by_cases hc : args.length = arity
  · have hmm : ∃ l1 ∈ listArgLens args, ∃ l2 ∈ listArgLens args, l1 ≠ l2 := by
      rcases h with h | h
      · exact absurd hc h
      · exact h
    obtain ⟨l1, h1, l2, h2, h12⟩ := hmm
    refine ⟨"All arguments must be lists of the same length", fun call => ?_⟩
    have hfalse : ((listArgLens args).all
        (fun l => l == (listArgLens args).headD 0)) = false := by
      cases hb : (listArgLens args).all (fun l => l == (listArgLens args).headD 0) with
      | false => rfl
      | true =>
        exfalso
        apply h12
        have e1 : l1 = (listArgLens args).headD 0 := by
          simpa using List.all_eq_true.mp hb l1 h1
        have e2 : l2 = (listArgLens args).headD 0 := by
          simpa using List.all_eq_true.mp hb l2 h2
        rw [e1, e2]
    unfold run_in_parallel
    rw [if_neg (by simp [hc])]
    rw [hfalse]
    simp
  · refine ⟨"Number of arguments does not match function signature", fun call => ?_⟩
    unfold run_in_parallel
    rw [if_pos hc]

/-- Witness for C4 at `run_in_parallel(f, [1, 2], [1, 2, 3], n=2)`. -/
theorem parallel_map_rejects_before_dispatch_witness :
    (([PyVal.vList [.vInt 1, .vInt 2], PyVal.vList [.vInt 1, .vInt 2, .vInt 3]] : List PyVal).length ≠ 2
      ∨ ∃ l1 ∈ listArgLens [PyVal.vList [.vInt 1, .vInt 2], PyVal.vList [.vInt 1, .vInt 2, .vInt 3]],
          ∃ l2 ∈ listArgLens [PyVal.vList [.vInt 1, .vInt 2], PyVal.vList [.vInt 1, .vInt 2, .vInt 3]],
            l1 ≠ l2)
    ∧ ∃ msg, ∀ call, run_in_parallel 2 call
        [PyVal.vList [.vInt 1, .vInt 2], PyVal.vList [.vInt 1, .vInt 2, .vInt 3]]
        = .error msg :=
  ⟨by decide, parallel_map_rejects_before_dispatch 2
    [PyVal.vList [.vInt 1, .vInt 2], PyVal.vList [.vInt 1, .vInt 2, .vInt 3]] (by decide)⟩

/-- C5: if the persisted sidecar has at most one entry per filename, then
after any `Log` construction followed by any sequence of
`update`/`set_zero` calls, the rewritten sidecar still has at most one
entry per filename. -/
theorem log_filename_unique_invariant (basename : String) (fs : FileState)
    (ops : List LogOp) (h : filenamesNodup fs) :
    filenamesNodup (runOps (Log.init basename fs).1 (Log.init basename fs).2 ops).2 := by
  have h2 : filenamesNodup (Log.init basename fs).2 := h
  exact (runOps_nodup ops _ _ (Log.init_logsNodup basename fs h) h2).2

/-- Witness for C5 on a one-entry store followed by `update(9); set_zero()`. -/
theorem log_filename_unique_invariant_witness :
    filenamesNodup (some [⟨"dev.jsonl", 4⟩])
    ∧ filenamesNodup (runOps (Log.init "train.jsonl" (some [⟨"dev.jsonl", 4⟩])).1
        (Log.init "train.jsonl" (some [⟨"dev.jsonl", 4⟩])).2
        [.update 9, .setZero]).2 :=
  ⟨by simp [filenamesNodup], log_filename_unique_invariant "train.jsonl"
    (some [⟨"dev.jsonl", 4⟩]) [.update 9, .setZero] (by simp [filenamesNodup])⟩

/-- C6: for two `Log`s in one directory for filenames `A ≠ B`, updating
`B` does not disturb the persisted entry for `A`: after sequentially
constructing and updating each, reconstructing either observes its own
last written index. -/
theorem log_filename_isolation (A B : String) (fs : FileState) (va vb : Int)
    (hAB : A ≠ B)
    (s1 : Log × FileState)
    (hs1 : s1 = (Log.init A fs).1.update va (Log.init A fs).2)
    (s2 : Log × FileState)
    (hs2 : s2 = (Log.init B s1.2).1.update vb s1.2) :
    (Log.init A s2.2).1.last_idx = va ∧ (Log.init B s2.2).1.last_idx = vb := by
  obtain ⟨pre, j, hl, _⟩ := Log.init_logs_shape A fs
  have h1 : s1.2 = some (pre ++ [⟨A, va⟩]) := by
    rw [hs1]
    show some (setLastIdx (Log.init A fs).1.logs va) = _
    rw [hl, setLastIdx_append]
  have hshape : (Log.init B s1.2).1.logs
      = othersOf B (pre ++ [⟨A, va⟩]) ++ [⟨B, lastIdxOf B (pre ++ [⟨A, va⟩]) 0⟩] := by
    rw [h1, Log.init_some]
  have hkeep : othersOf B (pre ++ [⟨A, va⟩]) = othersOf B pre ++ [⟨A, va⟩] := by
    show List.filter _ (pre ++ [⟨A, va⟩]) = _
    rw [List.filter_append]
    congr 1
    show List.filter _ [(⟨A, va⟩ : Entry)] = [(⟨A, va⟩ : Entry)]
    simp [hAB]
  have h2 : s2.2 = some ((othersOf B pre ++ [⟨A, va⟩]) ++ [⟨B, vb⟩]) := by
    rw [hs2]
    show some (setLastIdx (Log.init B s1.2).1.logs vb) = _
    rw [hshape, hkeep, setLastIdx_append]
  constructor
  · rw [h2, Log.init_some]
    show lastIdxOf A ((othersOf B pre ++ [⟨A, va⟩]) ++ [⟨B, vb⟩]) 0 = va
    rw [lastIdxOf_append, lastIdxOf_tail A (othersOf B pre) va 0]
    show (if B = A then vb else va) = va
    rw [if_neg (fun hba => hAB hba.symm)]
  · rw [h2, Log.init_some]
    exact lastIdxOf_tail B (othersOf B pre ++ [⟨A, va⟩]) vb 0

/-- Witness for C6: `train.jsonl` updated to 110, then `dev.jsonl`
updated to 7 in the same directory; each reconstruction reads its own
index. -/
theorem log_filename_isolation_witness :
    ("train.jsonl" : String) ≠ "dev.jsonl"
    ∧ ((Log.init "train.jsonl"
          ((Log.init "dev.jsonl"
              ((Log.init "train.jsonl" none).1.update 110 (Log.init "train.jsonl" none).2).2).1.update 7
            ((Log.init "train.jsonl" none).1.update 110 (Log.init "train.jsonl" none).2).2).2).1.last_idx = 110
      ∧ (Log.init "dev.jsonl"
          ((Log.init "dev.jsonl"
              ((Log.init "train.jsonl" none).1.update 110 (Log.init "train.jsonl" none).2).2).1.update 7
            ((Log.init "train.jsonl" none).1.update 110 (Log.init "train.jsonl" none).2).2).2).1.last_idx = 7) :=
  ⟨by decide, log_filename_isolation "train.jsonl" "dev.jsonl" none 110 7 (by decide)
    ((Log.init "train.jsonl" none).1.update 110 (Log.init "train.jsonl" none).2) rfl
    ((Log.init "dev.jsonl"
        ((Log.init "train.jsonl" none).1.update 110 (Log.init "train.jsonl" none).2).2).1.update 7
      ((Log.init "train.jsonl" none).1.update 110 (Log.init "train.jsonl" none).2).2) rfl⟩

/-- C7: constructing a `Log` when the sidecar file does not exist yields
`last_idx = 0`, is not an error, and writes no file; the sidecar is
created only by the first `update` or `set_zero` call. -/
theorem log_missing_sidecar_reads_zero (basename : String) (v : Int) :
    (Log.init basename none).1.last_idx = 0
    ∧ (Log.init basename none).2 = none
    ∧ ((Log.init basename none).1.update v (Log.init basename none).2).2
        = some [⟨basename, v⟩]
    ∧ ((Log.init basename none).1.set_zero (Log.init basename none).2).2
        = some [⟨basename, 0⟩] :=
  ⟨rfl, rfl, rfl, rfl⟩

/-- C8: `set_zero()` is semantically identical to `update(0)`: the two
calls produce the same in-memory sequence, held `last_idx` (= 0) and
rewritten file, and the zero persists across reconstruction regardless of
the prior index value. -/
theorem log_set_zero_is_update_zero (lg : Log) (fs : FileState)
    (basename : String) (pre : List Entry) (j : Int)
    (hlogs : lg.logs = pre ++ [⟨basename, j⟩]) :
    lg.set_zero fs = lg.update 0 fs
    ∧ (lg.set_zero fs).1.last_idx = 0
    ∧ (Log.init basename (lg.set_zero fs).2).1.last_idx = 0 := by
  refine ⟨rfl, rfl, ?_⟩
  have h2 : (lg.set_zero fs).2 = some (pre ++ [⟨basename, 0⟩]) := by
    show some (setLastIdx lg.logs 0) = _
    rw [hlogs, setLastIdx_append]
  rw [h2, Log.init_some]
  exact lastIdxOf_tail basename pre 0 0

/-- Witness for C8 on a `Log` holding index 5 for `train.jsonl`. -/
theorem log_set_zero_is_update_zero_witness :
    ({ last_idx := 5, logs := [⟨"train.jsonl", 5⟩] } : Log).logs
        = [] ++ [⟨"train.jsonl", 5⟩]
    ∧ (({ last_idx := 5, logs := [⟨"train.jsonl", 5⟩] } : Log).set_zero none
        = ({ last_idx := 5, logs := [⟨"train.jsonl", 5⟩] } : Log).update 0 none
      ∧ (({ last_idx := 5, logs := [⟨"train.jsonl", 5⟩] } : Log).set_zero none).1.last_idx = 0
      ∧ (Log.init "train.jsonl"
          (({ last_idx := 5, logs := [⟨"train.jsonl", 5⟩] } : Log).set_zero none).2).1.last_idx = 0) :=
  ⟨rfl, log_set_zero_is_update_zero { last_idx := 5, logs := [⟨"train.jsonl", 5⟩] }
    none "train.jsonl" [] 5 rfl⟩

/-- C9: when no argument is a `list`, `run_in_parallel` fails with the
`IndexError` from `list_arg_lens[0]` instead of returning a result; the
error is the same for every function body, so the function is invoked
zero times. -/
theorem parallel_map_all_scalars_index_error (arity : Nat)
    (call : List PyVal → PyVal) (args : List PyVal)
    (ha : args.length = arity)
    (h : args.all (fun a => !a.isList) = true) :
    run_in_parallel arity call args = .error "IndexError: list index out of range" := by
  have hnil : listArgLens args = [] := listArgLens_nil_of_no_list h
  unfold run_in_parallel
  rw [if_neg (by simp [ha])]
  rw [hnil]
  rfl

/-- Witness for C9 at two scalar arguments. -/
theorem parallel_map_all_scalars_index_error_witness :
    ([PyVal.vInt 1, PyVal.vStr "x"] : List PyVal).length = 2
    ∧ ([PyVal.vInt 1, PyVal.vStr "x"] : List PyVal).all (fun a => !a.isList) = true
    ∧ run_in_parallel 2 (fun _ => PyVal.vInt 0) [PyVal.vInt 1, PyVal.vStr "x"]
        = .error "IndexError: list index out of range" :=
  ⟨rfl, rfl, parallel_map_all_scalars_index_error 2 (fun _ => PyVal.vInt 0)
    [PyVal.vInt 1, PyVal.vStr "x"] rfl rfl⟩

/-- Helper: mapping over `range xs.length` through `getD` is mapping over
`xs`. -/
theorem range_map_getD (g : PyVal → PyVal) (xs : List PyVal) (d : PyVal) :
    (List.range xs.length).map (fun i => g (xs.getD i d)) = xs.map g := by
  apply List.ext_getElem
  · simp
  · intro i h1 h2
    simp only [List.getElem_map, List.getElem_range]
    rw [List.getD_eq_getElem _ _ (by simpa using h2)]

/-- C10: `run_in_parallel` classifies an argument as a sequence exactly
when it is a `list`: a tuple and a string of ANY length pass validation
unexamined (their lengths never enter `list_arg_lens`) and are broadcast
as opaque scalars by whole-value repetition into every invocation. -/
theorem parallel_map_list_classification (xs ts : List PyVal) (s : String)
    (call : List PyVal → PyVal) :
    listArgLens [PyVal.vList xs, PyVal.vTuple ts, PyVal.vStr s] = [xs.length]
    ∧ run_in_parallel 3 call [PyVal.vList xs, PyVal.vTuple ts, PyVal.vStr s]
        = .ok (xs.map (fun x => call [x, PyVal.vTuple ts, PyVal.vStr s])) := by
  constructor
  · rfl
  · rw [run_in_parallel_ok 3 call [PyVal.vList xs, PyVal.vTuple ts, PyVal.vStr s]
        xs.length rfl rfl (by simp [listsHaveLen])]
    congr 1
    exact range_map_getD (fun x => call [x, PyVal.vTuple ts, PyVal.vStr s]) xs (.vInt 0)

end AwesomeUtils
